import Mathlib

/-!
# Verification of the `xtea` crate (XTEA block cipher)

Shallow embedding of `src/lib.rs`: the XTEA block transform over `Nat`
with explicit reduction modulo `2^32` (mirroring Rust's `Wrapping<u32>`),
the byte-stream adapter `cipher_stream`, and the slice adapter
`cipher_u8slice`, together with proofs of the specified properties.
-/

namespace Xtea

/-! ## Definitions: shallow embedding of `src/lib.rs` and the
spec-transcribed block transforms -/

/-- `2^32`, the modulus of Rust's `Wrapping<u32>` arithmetic. -/
def M : Nat := 4294967296

/-- Magic constant from `src/lib.rs`: `const DELTA: Wrapping<u32> = Wrapping(0x9E3779B9)`. -/
def DELTA : Nat := 0x9E3779B9

/-- Recommended default number of rounds (`const DEFAULT_ROUNDS: u32 = 32`). -/
def DEFAULT_ROUNDS : Nat := 32

/-- The `XTEA` struct: a 4-word key and a round count, both `u32` in Rust. -/
structure XTEA where
  key : Fin 4 → Nat
  num_rounds : Nat

theorem and3_lt (n : Nat) : n &&& 3 < 4 :=
  Nat.lt_succ_of_le Nat.and_le_right

/-- Wrapping `u32` subtraction on `Nat`: `(a - b) mod 2^32`. -/
def wsub (a b : Nat) : Nat := (a + (M - b % M)) % M

/-- The shared mixing subterm `((v << 4) ^ (v >> 5)) + v` of both round
functions, with the shift-left and the addition wrapping mod `2^32`. -/
def mixv (v : Nat) : Nat := (((v <<< 4) % M ^^^ v >>> 5) + v) % M

/-- The round term `(((v<<4)^(v>>5))+v) ^ (sum + key[sum & 3])` used in the
`v0` update of `encipher` and the `v0` update of `decipher`. -/
def term0 (key : Fin 4 → Nat) (sum v : Nat) : Nat :=
  mixv v ^^^ (sum + key ⟨sum &&& 3, and3_lt sum⟩) % M

/-- The round term `(((v<<4)^(v>>5))+v) ^ (sum + key[(sum >> 11) & 3])` used in
the `v1` update of `encipher` and the `v1` update of `decipher`. -/
def term1 (key : Fin 4 → Nat) (sum v : Nat) : Nat :=
  mixv v ^^^ (sum + key ⟨sum >>> 11 &&& 3, and3_lt _⟩) % M

/-- One iteration of the `encipher` loop body from `src/lib.rs`:
`v0 += (((v1<<4)^(v1>>5))+v1) ^ (sum + key[sum&3]); sum += DELTA;
 v1 += (((v0<<4)^(v0>>5))+v0) ^ (sum + key[(sum>>11)&3]);`
acting on the state `(v0, v1, sum)`. -/
def encipherRound (key : Fin 4 → Nat) : Nat × Nat × Nat → Nat × Nat × Nat
  | (v0, v1, sum) =>
    let v0' := (v0 + term0 key sum v1) % M
    let sum' := (sum + DELTA) % M
    let v1' := (v1 + term1 key sum' v0') % M
    (v0', v1', sum')

/-- One iteration of the `decipher` loop body from `src/lib.rs`:
`v1 -= (((v0<<4)^(v0>>5))+v0) ^ (sum + key[(sum>>11)&3]); sum -= DELTA;
 v0 -= (((v1<<4)^(v1>>5))+v1) ^ (sum + key[sum&3]);`. -/
def decipherRound (key : Fin 4 → Nat) : Nat × Nat × Nat → Nat × Nat × Nat
  | (v0, v1, sum) =>
    let v1' := wsub v1 (term1 key sum v0)
    let sum' := wsub sum DELTA
    let v0' := wsub v0 (term0 key sum' v1')
    (v0', v1', sum')

/-- The `for _ in 0..num_rounds` loop of `encipher`. -/
def encipherLoop (key : Fin 4 → Nat) : Nat → Nat × Nat × Nat → Nat × Nat × Nat
  | 0, st => st
  | n + 1, st => encipherLoop key n (encipherRound key st)

/-- The `for _ in 0..num_rounds` loop of `decipher`. -/
def decipherLoop (key : Fin 4 → Nat) : Nat → Nat × Nat × Nat → Nat × Nat × Nat
  | 0, st => st
  | n + 1, st => decipherLoop key n (decipherRound key st)

/-- `XTEA::encipher`: run the loop from `sum = 0` and return `(v0, v1)`. -/
def XTEA.encipher (x : XTEA) (input : Nat × Nat) : Nat × Nat :=
  ((encipherLoop x.key x.num_rounds (input.1, input.2, 0)).1,
   (encipherLoop x.key x.num_rounds (input.1, input.2, 0)).2.1)

/-- `XTEA::decipher`: run the loop from `sum = DELTA * num_rounds` (wrapping)
and return `(v0, v1)`. -/
def XTEA.decipher (x : XTEA) (input : Nat × Nat) : Nat × Nat :=
  ((decipherLoop x.key x.num_rounds (input.1, input.2, DELTA * x.num_rounds % M)).1,
   (decipherLoop x.key x.num_rounds (input.1, input.2, DELTA * x.num_rounds % M)).2.1)

/-- `XTEA::new_with_rounds`, with the `assert_eq!(num_rounds & 1, 0)` panic
modelled as `none`. -/
def new_with_rounds (key : Fin 4 → Nat) (num_rounds : Nat) : Option XTEA :=
  if num_rounds &&& 1 = 0 then some ⟨key, num_rounds⟩ else none

/-- `XTEA::new`: construction with the default round count. -/
def XTEA.new (key : Fin 4 → Nat) : Option XTEA :=
  new_with_rounds key DEFAULT_ROUNDS

/-- `Reduced st` says every component of the state is a valid `u32`. -/
def Reduced (st : Nat × Nat × Nat) : Prop :=
  st.1 < M ∧ st.2.1 < M ∧ st.2.2 < M

/-- Loop body transcribed from the spec pseudocode for encipher:
`v0 += (((v1 << 4) XOR (v1 >> 5)) + v1) XOR (sum + key[sum & 3]);
 sum += DELTA;
 v1 += (((v0 << 4) XOR (v0 >> 5)) + v0) XOR (sum + key[(sum >> 11) & 3])`,
all additions wrapping mod `2^32` and all shifts logical. The loop index `r`
is not read by the body. -/
def specForwardRound (key : Fin 4 → Nat) (st : Nat × Nat × Nat) (r : Nat) :
    Nat × Nat × Nat :=
  match st with
  | (v0, v1, sum) =>
    let v0' := (v0 + ((((v1 <<< 4) % M ^^^ v1 >>> 5) + v1) % M ^^^
      (sum + key ⟨sum &&& 3, and3_lt sum⟩) % M)) % M
    let sum' := (sum + DELTA) % M
    let v1' := (v1 + ((((v0' <<< 4) % M ^^^ v0' >>> 5) + v0') % M ^^^
      (sum' + key ⟨sum' >>> 11 &&& 3, and3_lt _⟩) % M)) % M
    (v0', v1', sum')

/-- The spec's forward transform: `sum := 0`, then `for r in 0..rounds` run
the forward loop body, and return `(v0, v1)`. -/
def encipherBlockSpec (key : Fin 4 → Nat) (rounds : Nat) (block : Nat × Nat) :
    Nat × Nat :=
  (((List.range rounds).foldl (specForwardRound key) (block.1, block.2, 0)).1,
   ((List.range rounds).foldl (specForwardRound key) (block.1, block.2, 0)).2.1)

/-- Loop body transcribed from the spec's description of decipher: update `v1`
first using the current `sum` and key index `(sum >> 11) & 3`, then decrement
`sum` by `DELTA`, then update `v0` using key index `sum & 3`, each update the
subtractive (wrapping) inverse of the corresponding encipher update. -/
def specBackwardRound (key : Fin 4 → Nat) (st : Nat × Nat × Nat) (r : Nat) :
    Nat × Nat × Nat :=
  match st with
  | (v0, v1, sum) =>
    let v1' := wsub v1 ((((v0 <<< 4) % M ^^^ v0 >>> 5) + v0) % M ^^^
      (sum + key ⟨sum >>> 11 &&& 3, and3_lt _⟩) % M)
    let sum' := wsub sum DELTA
    let v0' := wsub v0 ((((v1' <<< 4) % M ^^^ v1' >>> 5) + v1') % M ^^^
      (sum' + key ⟨sum' &&& 3, and3_lt sum'⟩) % M)
    (v0', v1', sum')

/-- The spec's backward transform: `sum := DELTA * rounds` (wrapping), then
`for r in 0..rounds` run the backward loop body, and return `(v0, v1)`. -/
def decipherBlockSpec (key : Fin 4 → Nat) (rounds : Nat) (block : Nat × Nat) :
    Nat × Nat :=
  (((List.range rounds).foldl (specBackwardRound key)
      (block.1, block.2, DELTA * rounds % M)).1,
   ((List.range rounds).foldl (specBackwardRound key)
      (block.1, block.2, DELTA * rounds % M)).2.1)

/-- The single error kind an in-memory byte source can produce: `read_u32`
hitting end-of-input before filling its 4-byte buffer (byteorder's
`UnexpectedEof`). -/
inductive StreamErr where
  | truncated
deriving DecidableEq

/-- Byte order selector: `byteorder::BE` or `byteorder::LE`. -/
inductive BOrder where
  | be
  | le
deriving DecidableEq

/-- `byteorder`'s `read_u32::<B>`: decode four consecutive bytes into a word. -/
def decodeW : BOrder → Nat → Nat → Nat → Nat → Nat
  | .be, b0, b1, b2, b3 => ((b0 * 256 + b1) * 256 + b2) * 256 + b3
  | .le, b0, b1, b2, b3 => ((b3 * 256 + b2) * 256 + b1) * 256 + b0

/-- `byteorder`'s `write_u32::<B>`: encode a `u32` as four bytes. -/
def encodeW : BOrder → Nat → List Nat
  | .be, w => [w / 16777216 % 256, w / 65536 % 256, w / 256 % 256, w % 256]
  | .le, w => [w % 256, w / 256 % 256, w / 65536 % 256, w / 16777216 % 256]

/-- The `if encipher { self.encipher(..) } else { self.decipher(..) }` branch
of `cipher_stream` and `cipher_u8slice`. -/
def cipherBlockW (x : XTEA) (encipher : Bool) (p : Nat × Nat) : Nat × Nat :=
  if encipher then x.encipher p else x.decipher p

/-- `XTEA::cipher_stream` over an in-memory byte source: the loop reads two
words per iteration; a failed first read (fewer than 4 bytes left) breaks the
loop with `Ok`, a failed second read returns the error, otherwise the
transformed block is written to the sink and the loop continues. The result
is the full sequence of bytes written to the sink, paired with the error, if
any, that ended the loop. -/
def cipherStream (x : XTEA) (encipher : Bool) (ord : BOrder) :
    List Nat → List Nat × Option StreamErr
  | b0 :: b1 :: b2 :: b3 :: c0 :: c1 :: c2 :: c3 :: rest =>
    let out := cipherBlockW x encipher (decodeW ord b0 b1 b2 b3, decodeW ord c0 c1 c2 c3)
    let next := cipherStream x encipher ord rest
    (encodeW ord out.1 ++ encodeW ord out.2 ++ next.1, next.2)
  | _ :: _ :: _ :: _ :: _ => ([], some .truncated)
  | _ => ([], none)

/-- `XTEA::encipher_stream`. -/
def encipher_stream (x : XTEA) (ord : BOrder) (input : List Nat) :
    List Nat × Option StreamErr :=
  cipherStream x true ord input

/-- `XTEA::decipher_stream`. -/
def decipher_stream (x : XTEA) (ord : BOrder) (input : List Nat) :
    List Nat × Option StreamErr :=
  cipherStream x false ord input

/-- `XTEA::cipher_u8slice`: the two `assert_eq!` length preconditions are
modelled as `none` (panic); then the stream cipher runs over in-memory
cursors and its `Result` is `.unwrap()`ed (a stream error is also `none`,
i.e. a panic). On success the output slice holds exactly the written bytes. -/
def cipher_u8slice (x : XTEA) (ord : BOrder) (input output : List Nat)
    (encipher : Bool) : Option (List Nat) :=
  if input.length = output.length then
    if input.length % 8 = 0 then
      match cipherStream x encipher ord input with
      | (written, none) => some written
      | (_, some _) => none
    else none
  else none

/-- `XTEA::encipher_u8slice`. -/
def encipher_u8slice (x : XTEA) (ord : BOrder) (input output : List Nat) :
    Option (List Nat) :=
  cipher_u8slice x ord input output true

/-- `XTEA::decipher_u8slice`. -/
def decipher_u8slice (x : XTEA) (ord : BOrder) (input output : List Nat) :
    Option (List Nat) :=
  cipher_u8slice x ord input output false

/-- The all-ones key from the spec's wraparound test. -/
def onesKey : Fin 4 → Nat := fun _ => 0xFFFFFFFF

/-- A cipher instance with the all-ones key and the default 32 rounds. -/
def exXTEA : XTEA := ⟨onesKey, 32⟩

/-! ## Theorems -/

theorem M_pos : 0 < M := by decide

theorem mixv_lt (v : Nat) : mixv v < M := Nat.mod_lt _ M_pos

theorem xor_lt_M {a b : Nat} (ha : a < M) (hb : b < M) : a ^^^ b < M := by
  have hM : M = 2 ^ 32 := by decide
  rw [hM] at ha hb ⊢
  exact Nat.xor_lt_two_pow ha hb

theorem DELTA_lt : DELTA < M := by decide

theorem term0_lt (key : Fin 4 → Nat) (sum v : Nat) : term0 key sum v < M :=
  xor_lt_M (mixv_lt v) (Nat.mod_lt _ M_pos)

theorem term1_lt (key : Fin 4 → Nat) (sum v : Nat) : term1 key sum v < M :=
  xor_lt_M (mixv_lt v) (Nat.mod_lt _ M_pos)

theorem encipherRound_reduced (key : Fin 4 → Nat) (st : Nat × Nat × Nat) :
    Reduced (encipherRound key st) := by
  obtain ⟨v0, v1, sum⟩ := st
  exact ⟨Nat.mod_lt _ M_pos, Nat.mod_lt _ M_pos, Nat.mod_lt _ M_pos⟩

theorem wsub_add_cancel {a : Nat} (t : Nat) (ha : a < M) (ht : t < M) :
    wsub ((a + t) % M) t = a := by
  have ha' : a < 4294967296 := ha
  have ht' : t < 4294967296 := ht
  show ((a + t) % 4294967296 + (4294967296 - t % 4294967296)) % 4294967296 = a
  omega

theorem roundInv (key : Fin 4 → Nat) (st : Nat × Nat × Nat) (h : Reduced st) :
    decipherRound key (encipherRound key st) = st := by
  obtain ⟨v0, v1, sum⟩ := st
  obtain ⟨h0, h1, hs⟩ := h
  simp only [encipherRound, decipherRound]
  rw [wsub_add_cancel (term1 key ((sum + DELTA) % M) ((v0 + term0 key sum v1) % M))
        h1 (term1_lt ..),
     wsub_add_cancel DELTA hs DELTA_lt,
     wsub_add_cancel (term0 key sum v1) h0 (term0_lt ..)]

theorem encipherLoop_succ_apply (key : Fin 4 → Nat) (n : Nat) (st : Nat × Nat × Nat) :
    encipherLoop key (n + 1) st = encipherRound key (encipherLoop key n st) := by
  induction n generalizing st with
  | zero => rfl
  | succ n ih =>
    show encipherLoop key (n + 1) (encipherRound key st) = _
    rw [ih]
    rfl

theorem encipherLoop_reduced (key : Fin 4 → Nat) (n : Nat) (st : Nat × Nat × Nat)
    (h : Reduced st) : Reduced (encipherLoop key n st) := by
  induction n generalizing st with
  | zero => exact h
  | succ n ih => exact ih _ (encipherRound_reduced key st)

theorem loopInv (key : Fin 4 → Nat) (n : Nat) (st : Nat × Nat × Nat) (h : Reduced st) :
    decipherLoop key n (encipherLoop key n st) = st := by
  induction n generalizing st with
  | zero => rfl
  | succ n ih =>
    rw [encipherLoop_succ_apply]
    show decipherLoop key n (decipherRound key (encipherRound key (encipherLoop key n st))) = st
    rw [roundInv key _ (encipherLoop_reduced key n st h), ih st h]

theorem encipherLoop_sum (key : Fin 4 → Nat) (n : Nat) (st : Nat × Nat × Nat)
    (hs : st.2.2 < M) : (encipherLoop key n st).2.2 = (st.2.2 + n * DELTA) % M := by
  induction n generalizing st with
  | zero =>
    simp [encipherLoop, Nat.mod_eq_of_lt hs]
  | succ n ih =>
    obtain ⟨v0, v1, sum⟩ := st
    show (encipherLoop key n (encipherRound key (v0, v1, sum))).2.2 = _
    rw [ih _ (encipherRound_reduced key (v0, v1, sum)).2.2]
    show ((sum + 2654435769) % 4294967296 + n * 2654435769) % 4294967296 =
      (sum + (n + 1) * 2654435769) % 4294967296
    omega

/-- Core round-trip fact: deciphering the enciphered block recovers the block. -/
theorem roundtrip_core (x : XTEA) (v0 v1 : Nat) (h0 : v0 < M) (h1 : v1 < M) :
    x.decipher (x.encipher (v0, v1)) = (v0, v1) := by
  have hred : Reduced (v0, v1, 0) := ⟨h0, h1, M_pos⟩
  have hsum : (encipherLoop x.key x.num_rounds (v0, v1, 0)).2.2 =
      DELTA * x.num_rounds % M := by
    rw [encipherLoop_sum x.key x.num_rounds (v0, v1, 0) M_pos]
    show (0 + x.num_rounds * DELTA) % M = _
    rw [Nat.zero_add, Nat.mul_comm]
  have hL : (((encipherLoop x.key x.num_rounds (v0, v1, 0)).1,
      (encipherLoop x.key x.num_rounds (v0, v1, 0)).2.1,
      DELTA * x.num_rounds % M) : Nat × Nat × Nat) =
      encipherLoop x.key x.num_rounds (v0, v1, 0) := by
    rw [← hsum]
  have hinv := loopInv x.key x.num_rounds (v0, v1, 0) hred
  show ((decipherLoop x.key x.num_rounds
      ((encipherLoop x.key x.num_rounds (v0, v1, 0)).1,
       (encipherLoop x.key x.num_rounds (v0, v1, 0)).2.1,
       DELTA * x.num_rounds % M)).1,
     (decipherLoop x.key x.num_rounds
      ((encipherLoop x.key x.num_rounds (v0, v1, 0)).1,
       (encipherLoop x.key x.num_rounds (v0, v1, 0)).2.1,
       DELTA * x.num_rounds % M)).2.1) = (v0, v1)
  rw [hL, hinv]

theorem specForwardRound_eq (key : Fin 4 → Nat) (st : Nat × Nat × Nat) (r : Nat) :
    specForwardRound key st r = encipherRound key st := by
  obtain ⟨v0, v1, sum⟩ := st
  rfl

theorem specBackwardRound_eq (key : Fin 4 → Nat) (st : Nat × Nat × Nat) (r : Nat) :
    specBackwardRound key st r = decipherRound key st := by
  obtain ⟨v0, v1, sum⟩ := st
  rfl

theorem decipherLoop_succ_apply (key : Fin 4 → Nat) (n : Nat) (st : Nat × Nat × Nat) :
    decipherLoop key (n + 1) st = decipherRound key (decipherLoop key n st) := by
  induction n generalizing st with
  | zero => rfl
  | succ n ih =>
    show decipherLoop key (n + 1) (decipherRound key st) = _
    rw [ih]
    rfl

theorem encipherLoop_eq_foldRange (key : Fin 4 → Nat) (n : Nat) (st : Nat × Nat × Nat) :
    encipherLoop key n st = (List.range n).foldl (specForwardRound key) st := by
  induction n with
  | zero => rfl
  | succ n ih =>
    rw [List.range_succ, List.foldl_append, ← ih, encipherLoop_succ_apply]
    exact (specForwardRound_eq key _ n).symm

theorem decipherLoop_eq_foldRange (key : Fin 4 → Nat) (n : Nat) (st : Nat × Nat × Nat) :
    decipherLoop key n st = (List.range n).foldl (specBackwardRound key) st := by
  induction n with
  | zero => rfl
  | succ n ih =>
    rw [List.range_succ, List.foldl_append, ← ih, decipherLoop_succ_apply]
    exact (specBackwardRound_eq key _ n).symm

theorem encodeW_length (ord : BOrder) (w : Nat) : (encodeW ord w).length = 4 := by
  cases ord <;> rfl

theorem cipherStream_cons8 (x : XTEA) (e : Bool) (ord : BOrder)
    (b0 b1 b2 b3 c0 c1 c2 c3 : Nat) (rest : List Nat) :
    cipherStream x e ord (b0 :: b1 :: b2 :: b3 :: c0 :: c1 :: c2 :: c3 :: rest) =
      (encodeW ord (cipherBlockW x e
          (decodeW ord b0 b1 b2 b3, decodeW ord c0 c1 c2 c3)).1 ++
       encodeW ord (cipherBlockW x e
          (decodeW ord b0 b1 b2 b3, decodeW ord c0 c1 c2 c3)).2 ++
       (cipherStream x e ord rest).1,
       (cipherStream x e ord rest).2) := rfl

theorem streamErr_eq_truncated (o : Option StreamErr) (h : o ≠ none) :
    o = some .truncated := by
  cases o with
  | none => exact absurd rfl h
  | some e => cases e; rfl

/-- Output length and loop-exit status of `cipher_stream`, as functions of the
source length: exactly the full blocks are written, and the run ends in `Ok`
precisely when fewer than 4 bytes remain for the first read of an iteration. -/
theorem cipherStream_spec (x : XTEA) (e : Bool) (ord : BOrder) :
    ∀ (n : Nat) (l : List Nat), l.length ≤ n →
      (cipherStream x e ord l).1.length = 8 * (l.length / 8) ∧
      ((cipherStream x e ord l).2 = none ↔ l.length % 8 < 4) := by
  intro n
  induction n with
  | zero =>
    intro l hl
    rw [Nat.le_zero, List.length_eq_zero] at hl
    subst hl
    exact ⟨rfl, by simp [cipherStream]⟩
  | succ n ih =>
    intro l hl
    match l with
    | [] => exact ⟨by simp [cipherStream], by simp [cipherStream]⟩
    | [a] => exact ⟨by simp [cipherStream], by simp [cipherStream]⟩
    | [a, b] => exact ⟨by simp [cipherStream], by simp [cipherStream]⟩
    | [a, b, c] => exact ⟨by simp [cipherStream], by simp [cipherStream]⟩
    | [a, b, c, d] => exact ⟨by simp [cipherStream], by simp [cipherStream]⟩
    | [a, b, c, d, a2] => exact ⟨by simp [cipherStream], by simp [cipherStream]⟩
    | [a, b, c, d, a2, b2] => exact ⟨by simp [cipherStream], by simp [cipherStream]⟩
    | [a, b, c, d, a2, b2, c2] => exact ⟨by simp [cipherStream], by simp [cipherStream]⟩
    | b0 :: b1 :: b2 :: b3 :: c0 :: c1 :: c2 :: c3 :: rest =>
      have hr : rest.length ≤ n := by
        simp only [List.length_cons] at hl
        omega
      obtain ⟨ih1, ih2⟩ := ih rest hr
      rw [cipherStream_cons8]
      constructor
      · simp only [List.length_append, encodeW_length, List.length_cons, ih1]
        omega
      · simp only [ih2, List.length_cons]
        omega

/-- Splitting the source at a block boundary splits the run. -/
theorem cipherStream_append (x : XTEA) (e : Bool) (ord : BOrder) :
    ∀ (n : Nat) (l1 l2 : List Nat), l1.length ≤ n → l1.length % 8 = 0 →
      cipherStream x e ord (l1 ++ l2) =
        ((cipherStream x e ord l1).1 ++ (cipherStream x e ord l2).1,
         (cipherStream x e ord l2).2) := by
  intro n
  induction n with
  | zero =>
    intro l1 l2 hl hm
    rw [Nat.le_zero, List.length_eq_zero] at hl
    subst hl
    simp [cipherStream]
  | succ n ih =>
    intro l1 l2 hl hm
    match l1 with
    | [] => simp [cipherStream]
    | [a] => simp at hm
    | [a, b] => simp at hm
    | [a, b, c] => simp at hm
    | [a, b, c, d] => simp at hm
    | [a, b, c, d, a2] => simp at hm
    | [a, b, c, d, a2, b2] => simp at hm
    | [a, b, c, d, a2, b2, c2] => simp at hm
    | b0 :: b1 :: b2 :: b3 :: c0 :: c1 :: c2 :: c3 :: rest =>
      have hr : rest.length ≤ n := by
        simp only [List.length_cons] at hl
        omega
      have hrm : rest.length % 8 = 0 := by
        simp only [List.length_cons] at hm
        omega
      show cipherStream x e ord
          (b0 :: b1 :: b2 :: b3 :: c0 :: c1 :: c2 :: c3 :: (rest ++ l2)) = _
      rw [cipherStream_cons8, cipherStream_cons8, ih rest l2 hr hrm]
      simp [List.append_assoc]

theorem decodeW_lt (ord : BOrder) (b0 b1 b2 b3 : Nat)
    (h0 : b0 < 256) (h1 : b1 < 256) (h2 : b2 < 256) (h3 : b3 < 256) :
    decodeW ord b0 b1 b2 b3 < M := by
  cases ord with
  | be =>
    show ((b0 * 256 + b1) * 256 + b2) * 256 + b3 < 4294967296
    omega
  | le =>
    show ((b3 * 256 + b2) * 256 + b1) * 256 + b0 < 4294967296
    omega

theorem encodeW_decodeW (ord : BOrder) (b0 b1 b2 b3 : Nat)
    (h0 : b0 < 256) (h1 : b1 < 256) (h2 : b2 < 256) (h3 : b3 < 256) :
    encodeW ord (decodeW ord b0 b1 b2 b3) = [b0, b1, b2, b3] := by
  cases ord with
  | be =>
    simp only [encodeW, decodeW, List.cons.injEq, and_true]
    omega
  | le =>
    simp only [encodeW, decodeW, List.cons.injEq, and_true]
    omega

theorem decipherRound_reduced (key : Fin 4 → Nat) (st : Nat × Nat × Nat) :
    Reduced (decipherRound key st) := by
  obtain ⟨v0, v1, sum⟩ := st
  exact ⟨Nat.mod_lt _ M_pos, Nat.mod_lt _ M_pos, Nat.mod_lt _ M_pos⟩

theorem decipherLoop_reduced (key : Fin 4 → Nat) (n : Nat) (st : Nat × Nat × Nat)
    (h : Reduced st) : Reduced (decipherLoop key n st) := by
  induction n generalizing st with
  | zero => exact h
  | succ n ih => exact ih _ (decipherRound_reduced key st)

theorem cipherBlockW_lt (x : XTEA) (e : Bool) (p : Nat × Nat)
    (h0 : p.1 < M) (h1 : p.2 < M) :
    (cipherBlockW x e p).1 < M ∧ (cipherBlockW x e p).2 < M := by
  cases e with
  | true =>
    have h := encipherLoop_reduced x.key x.num_rounds (p.1, p.2, 0) ⟨h0, h1, M_pos⟩
    exact ⟨h.1, h.2.1⟩
  | false =>
    have h := decipherLoop_reduced x.key x.num_rounds
      (p.1, p.2, DELTA * x.num_rounds % M) ⟨h0, h1, Nat.mod_lt _ M_pos⟩
    exact ⟨h.1, h.2.1⟩

/-- Running `cipher_stream` on the encoding of a block, a block of ciphered
output is written and the run continues on the tail. -/
theorem cipherStream_enc8 (x : XTEA) (e : Bool) (ord : BOrder) (a b : Nat)
    (ha : a < M) (hb : b < M) (t : List Nat) :
    cipherStream x e ord (encodeW ord a ++ encodeW ord b ++ t) =
      (encodeW ord (cipherBlockW x e (a, b)).1 ++
       encodeW ord (cipherBlockW x e (a, b)).2 ++
       (cipherStream x e ord t).1,
       (cipherStream x e ord t).2) := by
  have ha' : a < 4294967296 := ha
  have hb' : b < 4294967296 := hb
  cases ord with
  | be =>
    have hda : decodeW .be (a / 16777216 % 256) (a / 65536 % 256)
        (a / 256 % 256) (a % 256) = a := by
      show ((a / 16777216 % 256 * 256 + a / 65536 % 256) * 256 + a / 256 % 256) * 256
        + a % 256 = a
      omega
    have hdb : decodeW .be (b / 16777216 % 256) (b / 65536 % 256)
        (b / 256 % 256) (b % 256) = b := by
      show ((b / 16777216 % 256 * 256 + b / 65536 % 256) * 256 + b / 256 % 256) * 256
        + b % 256 = b
      omega
    have hL : encodeW .be a ++ encodeW .be b ++ t =
        a / 16777216 % 256 :: a / 65536 % 256 :: a / 256 % 256 :: a % 256 ::
        b / 16777216 % 256 :: b / 65536 % 256 :: b / 256 % 256 :: b % 256 :: t := rfl
    rw [hL, cipherStream_cons8, hda, hdb]
  | le =>
    have hda : decodeW .le (a % 256) (a / 256 % 256) (a / 65536 % 256)
        (a / 16777216 % 256) = a := by
      show ((a / 16777216 % 256 * 256 + a / 65536 % 256) * 256 + a / 256 % 256) * 256
        + a % 256 = a
      omega
    have hdb : decodeW .le (b % 256) (b / 256 % 256) (b / 65536 % 256)
        (b / 16777216 % 256) = b := by
      show ((b / 16777216 % 256 * 256 + b / 65536 % 256) * 256 + b / 256 % 256) * 256
        + b % 256 = b
      omega
    have hL : encodeW .le a ++ encodeW .le b ++ t =
        a % 256 :: a / 256 % 256 :: a / 65536 % 256 :: a / 16777216 % 256 ::
        b % 256 :: b / 256 % 256 :: b / 65536 % 256 :: b / 16777216 % 256 :: t := rfl
    rw [hL, cipherStream_cons8, hda, hdb]

/-- Deciphering the sink produced by enciphering a block-aligned byte source
recovers the source, block by block. -/
theorem cipherStream_roundtrip_aux (x : XTEA) (ord : BOrder) :
    ∀ (n : Nat) (l : List Nat), l.length ≤ n → l.length % 8 = 0 →
      (∀ b ∈ l, b < 256) →
      (cipherStream x false ord (cipherStream x true ord l).1).1 = l := by
  intro n
  induction n with
  | zero =>
    intro l hl hm hb
    rw [Nat.le_zero, List.length_eq_zero] at hl
    subst hl
    rfl
  | succ n ih =>
    intro l hl hm hb
    match l with
    | [] => rfl
    | [a] => simp at hm
    | [a, b] => simp at hm
    | [a, b, c] => simp at hm
    | [a, b, c, d] => simp at hm
    | [a, b, c, d, a2] => simp at hm
    | [a, b, c, d, a2, b2] => simp at hm
    | [a, b, c, d, a2, b2, c2] => simp at hm
    | b0 :: b1 :: b2 :: b3 :: b4 :: b5 :: b6 :: b7 :: rest =>
      have hr : rest.length ≤ n := by
        simp only [List.length_cons] at hl
        omega
      have hrm : rest.length % 8 = 0 := by
        simp only [List.length_cons] at hm
        omega
      have hrb : ∀ c ∈ rest, c < 256 := fun c hc => hb c (by simp [hc])
      have h0 : b0 < 256 := hb b0 (by simp)
      have h1 : b1 < 256 := hb b1 (by simp)
      have h2 : b2 < 256 := hb b2 (by simp)
      have h3 : b3 < 256 := hb b3 (by simp)
      have h4 : b4 < 256 := hb b4 (by simp)
      have h5 : b5 < 256 := hb b5 (by simp)
      have h6 : b6 < 256 := hb b6 (by simp)
      have h7 : b7 < 256 := hb b7 (by simp)
      have hw0 : decodeW ord b0 b1 b2 b3 < M := decodeW_lt ord b0 b1 b2 b3 h0 h1 h2 h3
      have hw1 : decodeW ord b4 b5 b6 b7 < M := decodeW_lt ord b4 b5 b6 b7 h4 h5 h6 h7
      obtain ⟨hE0, hE1⟩ := cipherBlockW_lt x true
        (decodeW ord b0 b1 b2 b3, decodeW ord b4 b5 b6 b7) hw0 hw1
      have hdec : cipherBlockW x false
          ((cipherBlockW x true (decodeW ord b0 b1 b2 b3, decodeW ord b4 b5 b6 b7)).1,
           (cipherBlockW x true (decodeW ord b0 b1 b2 b3, decodeW ord b4 b5 b6 b7)).2) =
          (decodeW ord b0 b1 b2 b3, decodeW ord b4 b5 b6 b7) :=
        roundtrip_core x (decodeW ord b0 b1 b2 b3) (decodeW ord b4 b5 b6 b7) hw0 hw1
      rw [cipherStream_cons8, cipherStream_enc8 x false ord
          (cipherBlockW x true (decodeW ord b0 b1 b2 b3, decodeW ord b4 b5 b6 b7)).1
          (cipherBlockW x true (decodeW ord b0 b1 b2 b3, decodeW ord b4 b5 b6 b7)).2
          hE0 hE1, hdec]
      show encodeW ord (decodeW ord b0 b1 b2 b3) ++ encodeW ord (decodeW ord b4 b5 b6 b7) ++
          (cipherStream x false ord (cipherStream x true ord rest).1).1 =
          b0 :: b1 :: b2 :: b3 :: b4 :: b5 :: b6 :: b7 :: rest
      rw [ih rest hr hrm hrb, encodeW_decodeW ord b0 b1 b2 b3 h0 h1 h2 h3,
        encodeW_decodeW ord b4 b5 b6 b7 h4 h5 h6 h7]
      rfl

/-- C1: for every key (all-zero and all-ones included), every even round
count, and every 64-bit block `(v0, v1)`, deciphering the result of
enciphering the block with the same key and round count returns the original
block, wraparound of the round additions included. -/
theorem claim_block_roundtrip (x : XTEA) (v0 v1 : Nat) (hr : x.num_rounds % 2 = 0)
    (h0 : v0 < M) (h1 : v1 < M) :
    x.decipher (x.encipher (v0, v1)) = (v0, v1) :=
  roundtrip_core x v0 v1 h0 h1

/-- Witness for C1 at the spec's wraparound vector: all-ones key, the default
32 rounds, block `(1234, 5678)`. -/
theorem claim_block_roundtrip_witness :
    exXTEA.num_rounds % 2 = 0 ∧ 1234 < M ∧ 5678 < M ∧
    exXTEA.decipher (exXTEA.encipher (1234, 5678)) = (1234, 5678) :=
  ⟨rfl, by decide, by decide,
   claim_block_roundtrip exXTEA 1234 5678 rfl (by decide) (by decide)⟩

/-- C2: `encipher` computes exactly the published XTEA forward transform —
`sum` from 0, the two listed update formulas per round with key indices
`sum & 3` and `(sum >> 11) & 3`, `DELTA = 0x9E3779B9`, all additions wrapping
mod `2^32`, all shifts logical. -/
theorem claim_encipher_matches_published (x : XTEA) (input : Nat × Nat) :
    x.encipher input = encipherBlockSpec x.key x.num_rounds input := by
  unfold XTEA.encipher encipherBlockSpec
  rw [encipherLoop_eq_foldRange]

/-- C3: `decipher` runs the exact algebraic inverse of `encipher` — `sum`
from `DELTA * rounds` (wrapping), per round subtracting from `v1` with key
index `(sum >> 11) & 3`, decrementing `sum` by `DELTA`, then subtracting from
`v0` with key index `sum & 3`. -/
theorem claim_decipher_matches_published (x : XTEA) (input : Nat × Nat) :
    x.decipher input = decipherBlockSpec x.key x.num_rounds input := by
  unfold XTEA.decipher decipherBlockSpec
  rw [decipherLoop_eq_foldRange]

/-- C4: a failed first word-read of an iteration (fewer than 4 bytes left,
the clean end-of-input included) terminates the loop with success — in
particular every source whose length is a multiple of 8 drains with `Ok` —
while a failed second word-read of an iteration yields an I/O failure. -/
theorem claim_stream_read_policy (x : XTEA) (e : Bool) (ord : BOrder) (l : List Nat) :
    (l.length < 4 → cipherStream x e ord l = ([], none)) ∧
    (4 ≤ l.length % 8 → (cipherStream x e ord l).2 = some .truncated) ∧
    (l.length % 8 = 0 → (cipherStream x e ord l).2 = none) := by
  obtain ⟨h1, h2⟩ := cipherStream_spec x e ord l.length l (Nat.le_refl _)
  refine ⟨?_, ?_, ?_⟩
  · intro hlt
    have hout : (cipherStream x e ord l).1 = [] :=
      List.length_eq_zero.mp (by rw [h1]; omega)
    have herr : (cipherStream x e ord l).2 = none := h2.mpr (by omega)
    have hpair : cipherStream x e ord l =
        ((cipherStream x e ord l).1, (cipherStream x e ord l).2) := rfl
    rw [hpair, hout, herr]
  · intro h4
    exact streamErr_eq_truncated _ (fun hn => by have := h2.mp hn; omega)
  · intro hz
    exact h2.mpr (by omega)

/-- Witness for C4: a 3-byte source ends with `Ok` and an empty sink, a
5-byte source (second read fails) reports the truncation error, and an empty
source drains with `Ok`. -/
theorem claim_stream_read_policy_witness :
    cipherStream exXTEA true .be [9, 9, 9] = ([], none) ∧
    (cipherStream exXTEA true .be [9, 9, 9, 9, 9]).2 = some .truncated ∧
    (cipherStream exXTEA false .le []).2 = none :=
  ⟨(claim_stream_read_policy exXTEA true .be [9, 9, 9]).1 (by decide),
   (claim_stream_read_policy exXTEA true .be [9, 9, 9, 9, 9]).2.1 (by decide),
   (claim_stream_read_policy exXTEA false .le []).2.2 (by decide)⟩

/-- C5 fails as stated: this 9-byte source ends strictly inside its second
block, yet `cipher_stream` swallows the first-read failure and returns
success instead of reporting a truncated-input failure. -/
theorem claim_error_classes_counterexample :
    (List.replicate 9 0).length % 8 ≠ 0 ∧
    (cipherStream exXTEA true .be (List.replicate 9 0)).2 = none := by
  constructor
  · decide
  · decide

/-- C5 (amended): mid-block truncation is reported (as the single error kind
an in-memory source can produce) exactly when end-of-input falls between the
first and the second word-read of a block — source length mod 8 in `4..7`;
when end-of-input falls at the first word-read (length mod 8 in `1..3`) the
failure is swallowed by the loop's `break` and the run reports success. -/
theorem claim_error_classes (x : XTEA) (e : Bool) (ord : BOrder) (l : List Nat) :
    (cipherStream x e ord l).2 = some .truncated ↔ 4 ≤ l.length % 8 := by
  obtain ⟨h1, h2⟩ := cipherStream_spec x e ord l.length l (Nat.le_refl _)
  constructor
  · intro h
    by_contra hc
    rw [h2.mpr (by omega)] at h
    exact Option.noConfusion h
  · intro h
    exact streamErr_eq_truncated _ (fun hn => by have := h2.mp hn; omega)

/-- C6: a 16-byte source succeeds with exactly 16 bytes written, a 12-byte
source fails with the truncation error after exactly one full 8-byte block —
the sink holding exactly the output of the completed first block — and the
empty source succeeds with nothing written. -/
theorem claim_stream_sink_blocks (x : XTEA) (e : Bool) (ord : BOrder) (l : List Nat) :
    (l.length = 16 → (cipherStream x e ord l).2 = none ∧
      (cipherStream x e ord l).1.length = 16) ∧
    (l.length = 12 → (cipherStream x e ord l).2 = some .truncated ∧
      (cipherStream x e ord l).1.length = 8 ∧
      (cipherStream x e ord l).1 = (cipherStream x e ord (l.take 8)).1) ∧
    (l.length = 0 → cipherStream x e ord l = ([], none)) := by
  obtain ⟨h1, h2⟩ := cipherStream_spec x e ord l.length l (Nat.le_refl _)
  refine ⟨?_, ?_, ?_⟩
  · intro h16
    exact ⟨h2.mpr (by omega), by rw [h1]; omega⟩
  · intro h12
    refine ⟨streamErr_eq_truncated _ (fun hn => by have := h2.mp hn; omega),
      by rw [h1]; omega, ?_⟩
    have hsplit : l.take 8 ++ l.drop 8 = l := List.take_append_drop 8 l
    have htl : (l.take 8).length = 8 := by rw [List.length_take]; omega
    have happ := cipherStream_append x e ord (l.take 8).length (l.take 8) (l.drop 8)
      (Nat.le_refl _) (by rw [htl])
    obtain ⟨hd1, _⟩ := cipherStream_spec x e ord (l.drop 8).length (l.drop 8)
      (Nat.le_refl _)
    have hdl : (l.drop 8).length = 4 := by rw [List.length_drop]; omega
    have hdrop : (cipherStream x e ord (l.drop 8)).1 = [] :=
      List.length_eq_zero.mp (by rw [hd1]; omega)
    calc (cipherStream x e ord l).1
        = (cipherStream x e ord (l.take 8 ++ l.drop 8)).1 := by rw [hsplit]
      _ = (cipherStream x e ord (l.take 8)).1 ++ (cipherStream x e ord (l.drop 8)).1 := by
          rw [happ]
      _ = (cipherStream x e ord (l.take 8)).1 := by rw [hdrop, List.append_nil]
  · intro hz
    have : l = [] := List.length_eq_zero.mp hz
    subst this
    rfl

/-- Witness for C6 at concrete 16-, 12- and 0-byte sources. -/
theorem claim_stream_sink_blocks_witness :
    ((cipherStream exXTEA true .be (List.replicate 16 10)).2 = none ∧
     (cipherStream exXTEA true .be (List.replicate 16 10)).1.length = 16) ∧
    ((cipherStream exXTEA true .be (List.replicate 12 10)).2 = some .truncated ∧
     (cipherStream exXTEA true .be (List.replicate 12 10)).1.length = 8 ∧
     (cipherStream exXTEA true .be (List.replicate 12 10)).1 =
       (cipherStream exXTEA true .be ((List.replicate 12 10).take 8)).1) ∧
    cipherStream exXTEA true .be [] = ([], none) :=
  ⟨(claim_stream_sink_blocks exXTEA true .be (List.replicate 16 10)).1 (by decide),
   (claim_stream_sink_blocks exXTEA true .be (List.replicate 12 10)).2.1 (by decide),
   (claim_stream_sink_blocks exXTEA true .be []).2.2 (by decide)⟩

/-- C7: constructing a cipher with an odd round count fails (checked
precondition, not a silent correction), and with an even round count it
succeeds, storing exactly the given key and round count. -/
theorem claim_odd_rounds_rejected (key : Fin 4 → Nat) (n : Nat) :
    (n % 2 = 1 → new_with_rounds key n = none) ∧
    (n % 2 = 0 → new_with_rounds key n = some ⟨key, n⟩) := by
  unfold new_with_rounds
  rw [Nat.and_one_is_mod]
  constructor
  · intro h
    rw [if_neg (by omega)]
  · intro h
    rw [if_pos h]

/-- Witness for C7 at the spec's example: 31 rounds is rejected, 32 rounds is
accepted with the round count stored unchanged. -/
theorem claim_odd_rounds_rejected_witness :
    new_with_rounds onesKey 31 = none ∧
    new_with_rounds onesKey 32 = some ⟨onesKey, 32⟩ :=
  ⟨(claim_odd_rounds_rejected onesKey 31).1 (by decide),
   (claim_odd_rounds_rejected onesKey 32).2 (by decide)⟩

/-- C8: the buffer operations fail on mismatched input/output lengths and on
lengths not divisible by 8 (reported failure, never silent truncation), and
complete normally when both preconditions hold. -/
theorem claim_u8slice_preconditions (x : XTEA) (ord : BOrder) (input output : List Nat)
    (e : Bool) :
    (input.length ≠ output.length → cipher_u8slice x ord input output e = none) ∧
    (input.length % 8 ≠ 0 → cipher_u8slice x ord input output e = none) ∧
    (input.length = output.length → input.length % 8 = 0 →
      ∃ written, cipher_u8slice x ord input output e = some written) := by
  refine ⟨?_, ?_, ?_⟩
  · intro h
    unfold cipher_u8slice
    rw [if_neg h]
  · intro h
    unfold cipher_u8slice
    by_cases hlen : input.length = output.length
    · rw [if_pos hlen, if_neg h]
    · rw [if_neg hlen]
  · intro hlen hmod
    obtain ⟨h1, h2⟩ := cipherStream_spec x e ord input.length input (Nat.le_refl _)
    unfold cipher_u8slice
    rw [if_pos hlen, if_pos hmod]
    rcases hE : cipherStream x e ord input with ⟨written, err⟩
    rw [hE] at h2
    have herr : err = none := h2.mpr (by omega)
    subst herr
    exact ⟨written, rfl⟩

/-- Witness for C8: mismatched lengths fail, length 15 fails, and a valid
16-byte call completes. -/
theorem claim_u8slice_preconditions_witness :
    cipher_u8slice exXTEA .be (List.replicate 16 1) (List.replicate 8 1) true = none ∧
    cipher_u8slice exXTEA .be (List.replicate 15 1) (List.replicate 15 1) true = none ∧
    ∃ written, cipher_u8slice exXTEA .be (List.replicate 16 1) (List.replicate 16 2) true =
      some written :=
  ⟨(claim_u8slice_preconditions exXTEA .be (List.replicate 16 1)
      (List.replicate 8 1) true).1 (by decide),
   (claim_u8slice_preconditions exXTEA .be (List.replicate 15 1)
      (List.replicate 15 1) true).2.1 (by decide),
   (claim_u8slice_preconditions exXTEA .be (List.replicate 16 1)
      (List.replicate 16 2) true).2.2 (by decide) (by decide)⟩

/-- C9: for every byte buffer whose length is a positive multiple of 8, every
key, and both byte orders, enciphering and then deciphering with the same key
and order reproduces the original bytes exactly. -/
theorem claim_u8slice_roundtrip (x : XTEA) (ord : BOrder) (input out0 out1 : List Nat)
    (hmod : input.length % 8 = 0) (hpos : 0 < input.length)
    (hbytes : ∀ b ∈ input, b < 256)
    (ho0 : out0.length = input.length) (ho1 : out1.length = input.length) :
    ∃ enc, encipher_u8slice x ord input out0 = some enc ∧
      decipher_u8slice x ord enc out1 = some input := by
  obtain ⟨he1, he2⟩ := cipherStream_spec x true ord input.length input (Nat.le_refl _)
  have hrt := cipherStream_roundtrip_aux x ord input.length input (Nat.le_refl _) hmod hbytes
  unfold encipher_u8slice cipher_u8slice
  rw [if_pos ho0.symm, if_pos hmod]
  rcases hE : cipherStream x true ord input with ⟨enc, err⟩
  rw [hE] at he1 he2 hrt
  have herr : err = none := he2.mpr (by omega)
  subst herr
  have hlen : enc.length = input.length := by
    have h' : enc.length = 8 * (input.length / 8) := he1
    omega
  refine ⟨enc, rfl, ?_⟩
  unfold decipher_u8slice cipher_u8slice
  rw [if_pos (show enc.length = out1.length by omega),
    if_pos (show enc.length % 8 = 0 by omega)]
  obtain ⟨hd1, hd2⟩ := cipherStream_spec x false ord enc.length enc (Nat.le_refl _)
  have hrt' : (cipherStream x false ord enc).1 = input := hrt
  rcases hD : cipherStream x false ord enc with ⟨dec, derr⟩
  rw [hD] at hd1 hd2 hrt'
  have hderr : derr = none := hd2.mpr (by omega)
  subst hderr
  have hdec : dec = input := hrt'
  rw [hdec]

/-- Witness for C9: an 8-byte buffer of byte 7, round-tripped under both byte
orders with the all-ones key. -/
theorem claim_u8slice_roundtrip_witness :
    (∃ enc, encipher_u8slice exXTEA .be (List.replicate 8 7) (List.replicate 8 0) =
        some enc ∧
      decipher_u8slice exXTEA .be enc (List.replicate 8 0) =
        some (List.replicate 8 7)) ∧
    (∃ enc, encipher_u8slice exXTEA .le (List.replicate 8 7) (List.replicate 8 0) =
        some enc ∧
      decipher_u8slice exXTEA .le enc (List.replicate 8 0) =
        some (List.replicate 8 7)) :=
  ⟨claim_u8slice_roundtrip exXTEA .be (List.replicate 8 7) (List.replicate 8 0)
     (List.replicate 8 0) (by decide) (by decide) (by decide) (by decide) (by decide),
   claim_u8slice_roundtrip exXTEA .le (List.replicate 8 7) (List.replicate 8 0)
     (List.replicate 8 0) (by decide) (by decide) (by decide) (by decide) (by decide)⟩

/-- C10: under the buffer preconditions (length a multiple of 8), the
internal stream run of `cipher_u8slice` ends with `Ok` — so its final
`.unwrap()` cannot panic — and writes exactly as many bytes as the input
holds, so every word-write fits the output cursor. -/
theorem claim_internal_stream_ok (x : XTEA) (e : Bool) (ord : BOrder) (input : List Nat)
    (h : input.length % 8 = 0) :
    (cipherStream x e ord input).2 = none ∧
    (cipherStream x e ord input).1.length = input.length := by
  obtain ⟨h1, h2⟩ := cipherStream_spec x e ord input.length input (Nat.le_refl _)
  exact ⟨h2.mpr (by omega), by rw [h1]; omega⟩

/-- Witness for C10 at a concrete 8-byte input. -/
theorem claim_internal_stream_ok_witness :
    (cipherStream exXTEA false .le (List.replicate 8 5)).2 = none ∧
    (cipherStream exXTEA false .le (List.replicate 8 5)).1.length =
      (List.replicate 8 5).length :=
  claim_internal_stream_ok exXTEA false .le (List.replicate 8 5) (by decide)

end Xtea
